import Mathlib

/-!
Verification of `updateFields` from `tsdav-utils` (`src/updateFields.ts`).

The function receives an iCalendar/vCard record (a raw string or a wrapper
object with a `data` field) plus a flat map of property names to string
values.  It parses the record with the external ical.js engine, locates the
component to update (the first VEVENT / VTODO / VJOURNAL child of a
VCALENDAR container, or the root itself otherwise), upserts each field with
a lowercased name, and serializes the whole tree back to text.

The parsing engine is external to the repository, so `updateFields` below
is parametric in the parse function; the tree-level engine operations it
relies on (first subcomponent lookup, property upsert preserving order,
whole-tree serialization) are modelled explicitly.
-/

/-- A property of a component: name, parameters and a single value.
Modelled from the spec: the parsed tree holds, per node, an ordered
sequence of (name, value, optional parameters) triples. -/
structure Property where
  name : String
  params : List (String × String)
  value : String

/-- A parsed component tree: a named node with an ordered property list and
an ordered list of child components.  Modelled from the spec: the parsed
tree of the external engine (ical.js `ICAL.Component`). -/
inductive Component where
  | mk (name : String) (properties : List Property) (children : List Component)

def Component.name : Component → String
  | .mk n _ _ => n

def Component.properties : Component → List Property
  | .mk _ ps _ => ps

def Component.children : Component → List Component
  | .mk _ _ cs => cs

/-- The source's `key.toLowerCase()` and the engine's canonical
lowercasing, character by character. -/
def lowerStr (s : String) : String := ⟨s.data.map Char.toLower⟩

/-- Upsert on an ordered property list.  Modelled from the spec /
ical.js `updatePropertyWithValue`: replace the value of the first property
whose name equals `nm` in place (keeping its parameters and position);
if none exists, append a fresh property at the end. -/
def updateProp (ps : List Property) (nm v : String) : List Property :=
  match ps with
  | [] => [⟨nm, [], v⟩]
  | p :: rest =>
    if p.name = nm then { p with value := v } :: rest
    else p :: updateProp rest nm v

/-- `updatePropertyWithValue` lifted to a component: only the property list
of the node itself changes. -/
def updateComp (c : Component) (nm v : String) : Component :=
  .mk c.name (updateProp c.properties nm v) c.children

/-- The source's mutation loop:
`for (const [key, value] of Object.entries(fields))
   actualComponent.updatePropertyWithValue(key.toLowerCase(), value)`.
Field maps are lists of entries in enumeration order. -/
def applyFields (c : Component) (fields : List (String × String)) : Component :=
  fields.foldl (fun acc e => updateComp acc (lowerStr e.1) e.2) c

/-- Index of the first child whose name is `nm`.  Modelled from the spec /
ical.js `getFirstSubcomponent`: scan the children in order. -/
def firstSub (cs : List Component) (nm : String) : Option Nat :=
  match cs with
  | [] => none
  | c :: rest =>
    if c.name = nm then some 0
    else (firstSub rest nm).map (· + 1)

/-- The source's target selection inside a container:
`getFirstSubcomponent('vevent') || getFirstSubcomponent('vtodo') ||
 getFirstSubcomponent('vjournal')`. -/
def targetIdx (cs : List Component) : Option Nat :=
  match firstSub cs "vevent" with
  | some i => some i
  | none =>
    match firstSub cs "vtodo" with
    | some i => some i
    | none => firstSub cs "vjournal"

/-- Replace the element at index `i` by `f` of it, leaving every other
element alone; models in-place mutation of the aliased child inside the
parsed tree. -/
def modifyIdx (cs : List Component) (i : Nat) (f : Component → Component) : List Component :=
  match cs, i with
  | [], _ => []
  | c :: rest, 0 => f c :: rest
  | c :: rest, n + 1 => c :: modifyIdx rest n f

/-- Input shape of the source: a raw iCal string, or a tsdav-style wrapper
object whose `data` field may be absent, together with arbitrary further
fields that the function never reads. -/
inductive CalendarObjectInput where
  | str (s : String)
  | obj (data : Option String) (extra : List (String × String))

/-- The source's extraction step:
`typeof calendarObject === 'string' ? calendarObject : calendarObject.data`. -/
def extractData : CalendarObjectInput → Option String
  | .str s => some s
  | .obj d _ => d

/-- The three error conditions of the source, each a thrown `Error` with a
distinctive message. -/
inductive UFError where
  | invalidInput
  | parseFailure (engineMsg : String)
  | noUpdatableComponent

/-- The exact message strings thrown by the source. -/
def UFError.message : UFError → String
  | .invalidInput => "Invalid input: calendarObject must be a string or object with \"data\" field"
  | .parseFailure m => "Failed to parse iCal data: " ++ m
  | .noUpdatableComponent => "No VEVENT, VTODO, or VJOURNAL found in VCALENDAR"

def paramsText : List (String × String) → String
  | [] => ""
  | e :: rest => ";" ++ e.1 ++ "=" ++ e.2 ++ paramsText rest

def propsText : List Property → String
  | [] => ""
  | p :: ps => p.name ++ paramsText p.params ++ ":" ++ p.value ++ "\n" ++ propsText ps

mutual
/-- Whole-tree serialization.  Modelled from the spec: the engine's
`serialize(tree) → text` (ical.js `Component.toString`) renders the node's
name, every property in order, and every child in order. -/
def serialize : Component → String
  | .mk nm ps cs =>
    "BEGIN:" ++ nm ++ "\n" ++ propsText ps ++ serializeChildren cs ++ "END:" ++ nm ++ "\n"

def serializeChildren : List Component → String
  | [] => ""
  | c :: cs => serialize c ++ serializeChildren cs
end

/-- Shallow embedding of `updateFields` (src/updateFields.ts), parametric
in the external engine's `parse`:

1. extract the string (`typeof … === 'string' ? … : ….data`);
2. `if (!icalString) throw` InvalidInput;
3. `ICAL.parse`, any engine failure rethrown as ParseFailure;
4. if the root is named `vcalendar`, take the first vevent/vtodo/vjournal
   child (else throw NoUpdatableComponent), otherwise the root itself;
5. upsert every field with lowercased key on that node;
6. serialize the entire tree. -/
def updateFields (parse : String → Except String Component)
    (calendarObject : CalendarObjectInput)
    (fields : List (String × String)) : Except UFError String :=
  match extractData calendarObject with
  | none => .error .invalidInput
  | some s =>
    if s = "" then .error .invalidInput
    else
      match parse s with
      | .error e => .error (.parseFailure e)
      | .ok (.mk nm ps cs) =>
        if nm = "vcalendar" then
          match targetIdx cs with
          | none => .error .noUpdatableComponent
          | some i =>
            .ok (serialize (.mk nm ps (modifyIdx cs i (fun t => applyFields t fields))))
        else
          .ok (serialize (applyFields (.mk nm ps cs) fields))

/-- The same computation with the caller-owned arguments threaded through
as state: each exit path returns the wrapper object and the field map as
received.  The source contains no assignment to `calendarObject` or
`fields` (it only reads `calendarObject.data` and enumerates `fields`), so
every branch hands them back untouched. -/
def updateFieldsTracked (parse : String → Except String Component)
    (calendarObject : CalendarObjectInput)
    (fields : List (String × String)) :
    Except UFError String × CalendarObjectInput × List (String × String) :=
  match extractData calendarObject with
  | none => (.error .invalidInput, calendarObject, fields)
  | some s =>
    if s = "" then (.error .invalidInput, calendarObject, fields)
    else
      match parse s with
      | .error e => (.error (.parseFailure e), calendarObject, fields)
      | .ok (.mk nm ps cs) =>
        if nm = "vcalendar" then
          match targetIdx cs with
          | none => (.error .noUpdatableComponent, calendarObject, fields)
          | some i =>
            (.ok (serialize (.mk nm ps (modifyIdx cs i (fun t => applyFields t fields)))),
              calendarObject, fields)
        else
          (.ok (serialize (applyFields (.mk nm ps cs) fields)), calendarObject, fields)

/-- The lowercased key set of a field map, as the source computes it
(`key.toLowerCase()`). -/
def loweredKeys (fields : List (String × String)) : List String :=
  fields.map (fun e => (lowerStr e.1))

/-- The sublist of properties whose (stored) name is none of the lowered
field-map keys — the properties the mutation loop never touches. -/
def keepOthers (fields : List (String × String)) (ps : List Property) : List Property :=
  ps.filter (fun p => !decide (p.name ∈ loweredKeys fields))

/-- The sublist of properties whose name, compared case-insensitively, is
not a key of the field map — the claims' notion of an unnamed property. -/
def keepOthersCI (fields : List (String × String)) (ps : List Property) : List Property :=
  ps.filter (fun p => !decide ((lowerStr p.name) ∈ loweredKeys fields))

/-- ical.js `getFirstPropertyValue`: value of the first property with the
given name. -/
def Component.getFirstPropertyValue (c : Component) (nm : String) : Option String :=
  (c.properties.find? (fun p => p.name = nm)).map (fun p => p.value)

/-- All property names of the list are already in the engine's canonical
lowercase form (the spec: "the canonical form for lookup/update is
lowercase"; the source: "Note: component.name returns lowercase"). -/
def lowerNamed (ps : List Property) : Prop :=
  ∀ p ∈ ps, (lowerStr p.name) = p.name

instance (ps : List Property) : Decidable (lowerNamed ps) := by
  unfold lowerNamed; infer_instance

/-! ### A concrete engine instance, used to evaluate the theorems at
concrete inputs. -/

def sampleEvent : Component :=
  .mk "vevent" [⟨"uid", [], "ev1"⟩, ⟨"summary", [], "Original"⟩, ⟨"location", [], "Room A"⟩] []

def sampleEvent2 : Component :=
  .mk "vevent" [⟨"summary", [], "Second"⟩] []

def sampleTimezone : Component :=
  .mk "vtimezone" [⟨"tzid", [], "UTC"⟩] []

def sampleTodo : Component :=
  .mk "vtodo" [⟨"summary", [], "Task"⟩] []

def sampleCalendar : Component :=
  .mk "vcalendar" [⟨"version", [], "2.0"⟩, ⟨"prodid", [], "-//test//"⟩]
    [sampleTimezone, sampleEvent, sampleEvent2]

def sampleTodoCalendar : Component :=
  .mk "vcalendar" [⟨"version", [], "2.0"⟩] [sampleTimezone, sampleTodo]

def sampleEmptyCalendar : Component :=
  .mk "vcalendar" [⟨"version", [], "2.0"⟩] [sampleTimezone]

def sampleCard : Component :=
  .mk "vcard" [⟨"fn", [], "John Doe"⟩, ⟨"email", [], "john@example.com"⟩] []

def sampleOdd : Component :=
  .mk "x-unknown" [⟨"note", [], "n"⟩] []

/-- A concrete instance of the external parse function, mapping a few
fixed input strings to parsed trees and failing on everything else with a
diagnostic message. -/
def parseStub : String → Except String Component := fun s =>
  if s = "CAL" then .ok sampleCalendar
  else if s = "TODOCAL" then .ok sampleTodoCalendar
  else if s = "EMPTYCAL" then .ok sampleEmptyCalendar
  else if s = "CARD" then .ok sampleCard
  else if s = "ODD" then .ok sampleOdd
  else .error "invalid line (no token \":\")"

/-! ### Helper lemmas about the tree operations. -/

theorem applyFields_nil (c : Component) : applyFields c [] = c := rfl

theorem updateComp_name (c : Component) (nm v : String) :
    (updateComp c nm v).name = c.name := rfl

theorem updateComp_children (c : Component) (nm v : String) :
    (updateComp c nm v).children = c.children := rfl

theorem applyFields_name (c : Component) (fields : List (String × String)) :
    (applyFields c fields).name = c.name := by
  induction fields generalizing c with
  | nil => rfl
  | cons e rest ih => simpa [applyFields, List.foldl_cons] using ih (updateComp c (lowerStr e.1) e.2)

theorem applyFields_children (c : Component) (fields : List (String × String)) :
    (applyFields c fields).children = c.children := by
  induction fields generalizing c with
  | nil => rfl
  | cons e rest ih => simpa [applyFields, List.foldl_cons] using ih (updateComp c (lowerStr e.1) e.2)

theorem applyFields_props (c : Component) (fields : List (String × String)) :
    (applyFields c fields).properties =
      fields.foldl (fun acc e => updateProp acc (lowerStr e.1) e.2) c.properties := by
  induction fields generalizing c with
  | nil => rfl
  | cons e rest ih =>
    simpa [applyFields, List.foldl_cons, updateComp]
      using ih (updateComp c (lowerStr e.1) e.2)

theorem modifyIdx_id (cs : List Component) (i : Nat) :
    modifyIdx cs i (fun t => t) = cs := by
  induction cs generalizing i with
  | nil => rfl
  | cons c rest ih =>
    cases i with
    | zero => rfl
    | succ n => simp [modifyIdx, ih]

theorem modifyIdx_getElem?_ne (cs : List Component) (i j : Nat)
    (f : Component → Component) (h : j ≠ i) :
    (modifyIdx cs i f)[j]? = cs[j]? := by
  induction cs generalizing i j with
  | nil => rfl
  | cons c rest ih =>
    cases i with
    | zero =>
      cases j with
      | zero => exact absurd rfl h
      | succ m => simp [modifyIdx]
    | succ n =>
      cases j with
      | zero => simp [modifyIdx]
      | succ m =>
        simp only [modifyIdx, List.getElem?_cons_succ]
        exact ih n m (fun hc => h (by simp [hc]))

theorem modifyIdx_getElem?_eq (cs : List Component) (i : Nat)
    (f : Component → Component) :
    (modifyIdx cs i f)[i]? = (cs[i]?).map f := by
  induction cs generalizing i with
  | nil => rfl
  | cons c rest ih =>
    cases i with
    | zero => simp [modifyIdx]
    | succ n => simpa [modifyIdx] using ih n

theorem firstSub_eq_none (cs : List Component) (nm : String) :
    firstSub cs nm = none ↔ ∀ c ∈ cs, c.name ≠ nm := by
  induction cs with
  | nil => simp [firstSub]
  | cons c rest ih =>
    by_cases h : c.name = nm
    · simp [firstSub, h]
    · simp [firstSub, h, ih]

theorem firstSub_eq_some (cs : List Component) (nm : String) (i : Nat)
    (h : firstSub cs nm = some i) :
    ∃ ch, cs[i]? = some ch ∧ ch.name = nm ∧
      ∀ j < i, ∀ ch', cs[j]? = some ch' → ch'.name ≠ nm := by
  induction cs generalizing i with
  | nil => simp [firstSub] at h
  | cons c rest ih =>
    by_cases hc : c.name = nm
    · simp only [firstSub, hc, if_pos rfl] at h
      cases h
      exact ⟨c, by simp, hc, by omega⟩
    · simp only [firstSub, hc, if_false, Option.map_eq_some'] at h
      obtain ⟨i', hi', rfl⟩ := h
      obtain ⟨ch, hch, hnm, hbefore⟩ := ih i' hi'
      refine ⟨ch, by simpa using hch, hnm, ?_⟩
      intro j hj ch' hch'
      cases j with
      | zero =>
        simp only [List.getElem?_cons_zero, Option.some.injEq] at hch'
        subst hch'; exact hc
      | succ m =>
        simp only [List.getElem?_cons_succ] at hch'
        exact hbefore m (by omega) ch' hch'

theorem keepOthers_updateProp (fields : List (String × String)) (ps : List Property)
    (nm v : String) (h : nm ∈ loweredKeys fields) :
    keepOthers fields (updateProp ps nm v) = keepOthers fields ps := by
  induction ps with
  | nil => simp [updateProp, keepOthers, List.filter, h]
  | cons p rest ih =>
    by_cases hp : p.name = nm
    · simp [updateProp, hp, keepOthers, List.filter_cons, h]
    · by_cases hm : p.name ∈ loweredKeys fields
      · simpa [updateProp, hp, keepOthers, List.filter_cons, hm] using ih
      · simpa [updateProp, hp, keepOthers, List.filter_cons, hm] using ih

theorem keepOthers_foldl (fields sub : List (String × String)) (ps : List Property)
    (h : ∀ e ∈ sub, (lowerStr e.1) ∈ loweredKeys fields) :
    keepOthers fields (sub.foldl (fun acc e => updateProp acc (lowerStr e.1) e.2) ps) =
      keepOthers fields ps := by
  induction sub generalizing ps with
  | nil => rfl
  | cons e rest ih =>
    rw [List.foldl_cons, ih _ (fun e' he' => h e' (List.mem_cons_of_mem _ he')),
      keepOthers_updateProp _ _ _ _ (h e (List.mem_cons_self _ _))]

/-- The mutation loop never touches a property whose stored name is none of
the lowered field-map keys: the ordered sublist of such properties is
unchanged. -/
theorem keepOthers_applyFields (c : Component) (fields : List (String × String)) :
    keepOthers fields (applyFields c fields).properties =
      keepOthers fields c.properties := by
  rw [applyFields_props]
  exact keepOthers_foldl fields fields c.properties
    (fun e he => List.mem_map.2 ⟨e, he, rfl⟩)

/-- On a tree whose property names are already lowercase (the engine's
canonical form), the case-insensitive notion of "not named by the field
map" coincides with the stored-name notion used by the loop. -/
theorem keepOthersCI_eq_keepOthers (fields : List (String × String))
    (ps : List Property) (h : lowerNamed ps) :
    keepOthersCI fields ps = keepOthers fields ps := by
  unfold keepOthersCI keepOthers
  exact List.filter_congr (fun p hp => by rw [h p hp])

theorem find?_updateProp_self (ps : List Property) (nm v : String) :
    ((updateProp ps nm v).find? (fun p => p.name = nm)).map (fun p => p.value) = some v := by
  induction ps with
  | nil => simp [updateProp, List.find?]
  | cons p rest ih =>
    by_cases hp : p.name = nm
    · simp [updateProp, hp, List.find?]
    · simpa [updateProp, hp, List.find?] using ih

theorem find?_updateProp_other (ps : List Property) (nm nm' v' : String) (h : nm' ≠ nm) :
    ((updateProp ps nm' v').find? (fun p => p.name = nm)).map (fun p => p.value) =
      (ps.find? (fun p => p.name = nm)).map (fun p => p.value) := by
  induction ps with
  | nil => simp [updateProp, List.find?, h]
  | cons p rest ih =>
    by_cases hp : p.name = nm'
    · simp [updateProp, hp, List.find?, h]
    · by_cases hq : p.name = nm
      · simp [updateProp, hp, List.find?, hq, Ne.symm h]
      · simpa [updateProp, hp, List.find?, hq] using ih

theorem find?_foldl_untouched (sub : List (String × String)) (ps : List Property)
    (nm : String) (h : ∀ e ∈ sub, (lowerStr e.1) ≠ nm) :
    ((sub.foldl (fun acc e => updateProp acc (lowerStr e.1) e.2) ps).find?
        (fun p => p.name = nm)).map (fun p => p.value) =
      (ps.find? (fun p => p.name = nm)).map (fun p => p.value) := by
  induction sub generalizing ps with
  | nil => rfl
  | cons e rest ih =>
    rw [List.foldl_cons, ih _ (fun e' he' => h e' (List.mem_cons_of_mem _ he')),
      find?_updateProp_other _ _ _ _ (h e (List.mem_cons_self _ _))]

/-- Upserting a key whose lowered name is not shadowed by any later entry
of the field map leaves that key's value visible in the result. -/
theorem getVal_applyFields_last (c : Component) (before after : List (String × String))
    (k v : String) (h : ∀ e ∈ after, (lowerStr e.1) ≠ (lowerStr k)) :
    (applyFields c (before ++ (k, v) :: after)).getFirstPropertyValue (lowerStr k) = some v := by
  unfold Component.getFirstPropertyValue
  rw [applyFields_props, List.foldl_append, List.foldl_cons]
  rw [find?_foldl_untouched after _ (lowerStr k) h]
  exact find?_updateProp_self _ (lowerStr k) v

/-- Upsert on a list that has no property of the given name appends a
fresh property at the end. -/
theorem updateProp_append (ps : List Property) (nm v : String)
    (h : ∀ p ∈ ps, p.name ≠ nm) :
    updateProp ps nm v = ps ++ [⟨nm, [], v⟩] := by
  induction ps with
  | nil => rfl
  | cons p rest ih =>
    rw [updateProp, if_neg (h p (List.mem_cons_self _ _)),
      ih (fun q hq => h q (List.mem_cons_of_mem _ hq)), List.cons_append]

/-- Upsert on a list whose first property of the given name is `p` replaces
the value of `p` in place, keeping its position, name and parameters and
every other property. -/
theorem updateProp_replace (ps1 ps2 : List Property) (p : Property) (nm v : String)
    (hp : p.name = nm) (h : ∀ q ∈ ps1, q.name ≠ nm) :
    updateProp (ps1 ++ p :: ps2) nm v = ps1 ++ { p with value := v } :: ps2 := by
  induction ps1 with
  | nil => simp [updateProp, hp]
  | cons q rest ih =>
    rw [List.cons_append, updateProp, if_neg (h q (List.mem_cons_self _ _)),
      ih (fun q' hq' => h q' (List.mem_cons_of_mem _ hq')), List.cons_append]

/-- Two consecutive upserts of the same (lowered) name collapse to the
second one. -/
theorem updateProp_updateProp (ps : List Property) (nm v1 v2 : String) :
    updateProp (updateProp ps nm v1) nm v2 = updateProp ps nm v2 := by
  induction ps with
  | nil => simp [updateProp]
  | cons p rest ih =>
    by_cases hp : p.name = nm
    · simp [updateProp, hp]
    · simp [updateProp, hp, ih]

theorem firstSub_mem (cs : List Component) (nm : String) (i : Nat)
    (h : firstSub cs nm = some i) : ∃ ch ∈ cs, ch.name = nm := by
  induction cs generalizing i with
  | nil => simp [firstSub] at h
  | cons c rest ih =>
    by_cases hc : c.name = nm
    · exact ⟨c, List.mem_cons_self _ _, hc⟩
    · simp only [firstSub, hc, if_false, Option.map_eq_some'] at h
      obtain ⟨i', hi', rfl⟩ := h
      obtain ⟨ch, hch, hnm⟩ := ih i' hi'
      exact ⟨ch, List.mem_cons_of_mem _ hch, hnm⟩

theorem targetIdx_none_iff (cs : List Component) :
    targetIdx cs = none ↔
      firstSub cs "vevent" = none ∧ firstSub cs "vtodo" = none ∧
        firstSub cs "vjournal" = none := by
  unfold targetIdx
  cases he : firstSub cs "vevent" with
  | some i => simp
  | none =>
    cases ht : firstSub cs "vtodo" with
    | some i => simp
    | none => simp

theorem updateComp_updateComp (c : Component) (nm v1 v2 : String) :
    updateComp (updateComp c nm v1) nm v2 = updateComp c nm v2 := by
  unfold updateComp
  simp [Component.name, Component.properties, Component.children,
    updateProp_updateProp]

/-- C4: `updateFields` fails with the InvalidInput error, for every parse
engine alike (so before any parse is attempted), exactly when the raw
record is the empty string or the wrapper's `data` field is absent or
empty; and the InvalidInput message differs from every ParseFailure
message. -/
theorem updateFields_invalidInput_iff (parse : String → Except String Component)
    (co : CalendarObjectInput) (fields : List (String × String)) :
    (updateFields parse co fields = .error .invalidInput ↔
      extractData co = none ∨ extractData co = some "") ∧
    (extractData co = none ∨ extractData co = some "" →
      ∀ parse' : String → Except String Component,
        updateFields parse co fields = updateFields parse' co fields) ∧
    (∀ m : String, UFError.message .invalidInput ≠ UFError.message (.parseFailure m)) := by
  refine ⟨?_, ?_, ?_⟩
  · cases hext : extractData co with
    | none => simp [updateFields, hext]
    | some s =>
      by_cases hs : s = ""
      · simp [updateFields, hext, hs]
      · cases hp : parse s with
        | error e => simp [updateFields, hext, hs, hp]
        | ok c =>
          cases c with
          | mk nm ps cs =>
            by_cases hn : nm = "vcalendar"
            · cases ht : targetIdx cs with
              | none => simp [updateFields, hext, hs, hp, hn, ht]
              | some i => simp [updateFields, hext, hs, hp, hn, ht]
            · simp [updateFields, hext, hs, hp, hn]
  · intro h parse'
    rcases h with h | h
    · simp [updateFields, h]
    · simp [updateFields, h]
  · intro m h
    have h2 := congrArg String.data h
    simp only [UFError.message, String.data_append] at h2
    rw [List.cons_append] at h2
    injection h2 with h3 _
    exact absurd h3 (by decide)

/-- C4 applied at a concrete input: the empty raw record is rejected as
InvalidInput. -/
theorem updateFields_invalidInput_iff_w :
    updateFields parseStub (.str "") [] = .error .invalidInput :=
  (updateFields_invalidInput_iff parseStub (.str "") []).1.mpr (Or.inr rfl)

/-- C5: whenever the extracted record text is non-empty and the engine
rejects it with diagnostic `e`, `updateFields` fails with a ParseFailure
error whose message wraps `e`; this outcome is distinct from InvalidInput
and NoUpdatableComponent. -/
theorem updateFields_parseFailure (parse : String → Except String Component)
    (co : CalendarObjectInput) (fields : List (String × String)) (s e : String)
    (h1 : extractData co = some s) (h2 : s ≠ "") (h3 : parse s = .error e) :
    updateFields parse co fields = .error (.parseFailure e) ∧
    (UFError.parseFailure e).message = "Failed to parse iCal data: " ++ e ∧
    UFError.parseFailure e ≠ .invalidInput ∧
    UFError.parseFailure e ≠ .noUpdatableComponent := by
  refine ⟨by simp [updateFields, h1, h2, h3], rfl, by simp, by simp⟩

/-- C5 applied at a concrete input: a string the engine rejects surfaces
the engine's diagnostic inside the ParseFailure error. -/
theorem updateFields_parseFailure_w :
    updateFields parseStub (.str "nope") [] =
      .error (.parseFailure "invalid line (no token \":\")") :=
  (updateFields_parseFailure parseStub (.str "nope") [] "nope"
    "invalid line (no token \":\")" rfl (by decide) rfl).1

/-- C6: with an empty field map, `updateFields` still runs the full
parse-serialize round trip and returns the serialization of the parsed
tree completely unmodified (same properties, values and structure). -/
theorem updateFields_empty_map (parse : String → Except String Component)
    (co : CalendarObjectInput) (s : String) (c : Component)
    (h1 : extractData co = some s) (h2 : s ≠ "") (h3 : parse s = .ok c)
    (h4 : c.name = "vcalendar" → targetIdx c.children ≠ none) :
    updateFields parse co [] = .ok (serialize c) := by
  cases c with
  | mk nm ps cs =>
    by_cases hn : nm = "vcalendar"
    · have ht := h4 (by simpa [Component.name] using hn)
      cases hti : targetIdx cs with
      | none => exact absurd hti (by simpa [Component.children] using ht)
      | some i =>
        have hm : modifyIdx cs i (fun t => applyFields t []) = cs := modifyIdx_id cs i
        simp [updateFields, h1, h2, h3, hn, hti, hm]
    · simp [updateFields, h1, h2, h3, hn, applyFields_nil]

/-- C6 applied at a concrete input: the sample calendar passes through the
empty-map update unchanged. -/
theorem updateFields_empty_map_w :
    updateFields parseStub (.str "CAL") [] = .ok (serialize sampleCalendar) :=
  updateFields_empty_map parseStub (.str "CAL") "CAL" sampleCalendar rfl (by decide)
    rfl (fun _ => by decide)

/-- C7: every parseable record whose root is not named `vcalendar` is
treated as standalone: the root itself is the update target, for every
root type name and with no validation, and the call never fails. -/
theorem updateFields_standalone (parse : String → Except String Component)
    (co : CalendarObjectInput) (fields : List (String × String)) (s : String)
    (c : Component)
    (h1 : extractData co = some s) (h2 : s ≠ "") (h3 : parse s = .ok c)
    (h4 : c.name ≠ "vcalendar") :
    updateFields parse co fields = .ok (serialize (applyFields c fields)) ∧
    (applyFields c fields).name = c.name ∧
    (applyFields c fields).children = c.children := by
  cases c with
  | mk nm ps cs =>
    have hn : nm ≠ "vcalendar" := by simpa [Component.name] using h4
    exact ⟨by simp [updateFields, h1, h2, h3, hn], applyFields_name _ _,
      applyFields_children _ _⟩

/-- C7 applied at a concrete input: an unknown root type (`x-unknown`) is
accepted and updated in place. -/
theorem updateFields_standalone_w :
    updateFields parseStub (.str "ODD") [("A", "B")] =
      .ok (serialize (applyFields sampleOdd [("A", "B")])) :=
  (updateFields_standalone parseStub (.str "ODD") [("A", "B")] "ODD" sampleOdd
    rfl (by decide) rfl (by decide)).1

/-- C8: threading the caller-owned wrapper object and field map through the
computation as state, every exit path of `updateFields` returns them
exactly as received, and yields the same result as the pure function. -/
theorem updateFieldsTracked_preserves_input (parse : String → Except String Component)
    (co : CalendarObjectInput) (fields : List (String × String)) :
    (updateFieldsTracked parse co fields).2.1 = co ∧
    (updateFieldsTracked parse co fields).2.2 = fields ∧
    (updateFieldsTracked parse co fields).1 = updateFields parse co fields := by
  cases hext : extractData co with
  | none => simp [updateFieldsTracked, updateFields, hext]
  | some s =>
    by_cases hs : s = ""
    · simp [updateFieldsTracked, updateFields, hext, hs]
    · cases hp : parse s with
      | error e => simp [updateFieldsTracked, updateFields, hext, hs, hp]
      | ok c =>
        cases c with
        | mk nm ps cs =>
          by_cases hn : nm = "vcalendar"
          · cases ht : targetIdx cs with
            | none => simp [updateFieldsTracked, updateFields, hext, hs, hp, hn, ht]
            | some i => simp [updateFieldsTracked, updateFields, hext, hs, hp, hn, ht]
          · simp [updateFieldsTracked, updateFields, hext, hs, hp, hn]

/-- C8 applied at a concrete input: the wrapper object comes back
untouched. -/
theorem updateFieldsTracked_preserves_input_w :
    (updateFieldsTracked parseStub (.obj (some "CAL") [("etag", "1")])
        [("SUMMARY", "x")]).2.1 = .obj (some "CAL") [("etag", "1")] :=
  (updateFieldsTracked_preserves_input parseStub (.obj (some "CAL") [("etag", "1")])
    [("SUMMARY", "x")]).1

/-- C9: wrapper inputs that agree on `data` produce identical results for
every engine and field map, whatever their other fields are; in
particular the result equals that of a wrapper with no extra fields at
all, so extra fields are never round-tripped into the output. -/
theorem updateFields_ignores_extra_fields (parse : String → Except String Component)
    (fields : List (String × String)) (d : Option String)
    (e1 e2 : List (String × String)) :
    updateFields parse (.obj d e1) fields = updateFields parse (.obj d e2) fields ∧
    updateFields parse (.obj d e1) fields = updateFields parse (.obj d []) fields :=
  ⟨rfl, rfl⟩

/-- C9 applied at a concrete input: differing `etag`/`url` wrapper fields
do not change the output. -/
theorem updateFields_ignores_extra_fields_w :
    updateFields parseStub (.obj (some "CAL") [("etag", "1")]) [] =
      updateFields parseStub (.obj (some "CAL") [("url", "u")]) [] :=
  (updateFields_ignores_extra_fields parseStub [] (some "CAL")
    [("etag", "1")] [("url", "u")]).1

theorem updateFields_ok_container (parse : String → Except String Component)
    (co : CalendarObjectInput) (fields : List (String × String)) (s : String)
    (c : Component) (i : Nat)
    (h1 : extractData co = some s) (h2 : s ≠ "") (h3 : parse s = .ok c)
    (hn : c.name = "vcalendar") (hti : targetIdx c.children = some i) :
    updateFields parse co fields =
      .ok (serialize (.mk c.name c.properties
        (modifyIdx c.children i (fun t => applyFields t fields)))) := by
  cases c with
  | mk nm ps cs =>
    simp only [Component.name, Component.properties, Component.children] at hn hti ⊢
    simp [updateFields, h1, h2, h3, hn, hti]

theorem updateFields_ok_standalone (parse : String → Except String Component)
    (co : CalendarObjectInput) (fields : List (String × String)) (s : String)
    (c : Component)
    (h1 : extractData co = some s) (h2 : s ≠ "") (h3 : parse s = .ok c)
    (hn : c.name ≠ "vcalendar") :
    updateFields parse co fields = .ok (serialize (applyFields c fields)) := by
  cases c with
  | mk nm ps cs =>
    simp only [Component.name] at hn
    simp [updateFields, h1, h2, h3, hn]

/-- C3: inside a record whose root is a recognized container, the update
target is the first child of the first present type in the fixed priority
order vevent, vtodo, vjournal; when no child of any of the three types
exists the call fails with NoUpdatableComponent and produces no output. -/
theorem updateFields_container_target (parse : String → Except String Component)
    (co : CalendarObjectInput) (fields : List (String × String)) (s : String)
    (c : Component)
    (h1 : extractData co = some s) (h2 : s ≠ "") (h3 : parse s = .ok c)
    (h4 : c.name = "vcalendar") :
    ((∀ ch ∈ c.children, ch.name ≠ "vevent" ∧ ch.name ≠ "vtodo" ∧ ch.name ≠ "vjournal") ↔
      targetIdx c.children = none) ∧
    (targetIdx c.children = none →
      updateFields parse co fields = .error .noUpdatableComponent) ∧
    (∀ i, targetIdx c.children = some i →
      (∃ ch, c.children[i]? = some ch ∧
        (ch.name = "vevent" ∨ ch.name = "vtodo" ∨ ch.name = "vjournal") ∧
        (∀ j < i, ∀ ch', c.children[j]? = some ch' → ch'.name ≠ ch.name) ∧
        (ch.name = "vtodo" → ∀ ch' ∈ c.children, ch'.name ≠ "vevent") ∧
        (ch.name = "vjournal" →
          ∀ ch' ∈ c.children, ch'.name ≠ "vevent" ∧ ch'.name ≠ "vtodo")) ∧
      updateFields parse co fields =
        .ok (serialize (.mk c.name c.properties
          (modifyIdx c.children i (fun t => applyFields t fields))))) := by
  refine ⟨?_, ?_, ?_⟩
  · rw [targetIdx_none_iff]
    constructor
    · intro h
      exact ⟨(firstSub_eq_none _ _).2 (fun ch hch => (h ch hch).1),
        (firstSub_eq_none _ _).2 (fun ch hch => (h ch hch).2.1),
        (firstSub_eq_none _ _).2 (fun ch hch => (h ch hch).2.2)⟩
    · rintro ⟨he, ht, hj⟩ ch hch
      exact ⟨(firstSub_eq_none _ _).1 he ch hch, (firstSub_eq_none _ _).1 ht ch hch,
        (firstSub_eq_none _ _).1 hj ch hch⟩
  · intro ht
    cases c with
    | mk nm ps cs =>
      simp only [Component.name, Component.children] at h4 ht
      simp [updateFields, h1, h2, h3, h4, ht]
  · intro i hti
    refine ⟨?_, updateFields_ok_container parse co fields s c i h1 h2 h3 h4 hti⟩
    cases he : firstSub c.children "vevent" with
    | some j =>
      have hj : j = i := by
        simp only [targetIdx, he] at hti
        exact Option.some.inj hti
      subst hj
      obtain ⟨ch, hch, hnm, hbefore⟩ := firstSub_eq_some c.children "vevent" j he
      refine ⟨ch, hch, Or.inl hnm, ?_, ?_, ?_⟩
      · intro j' hj' ch' hch'
        rw [hnm]
        exact hbefore j' hj' ch' hch'
      · intro h'
        rw [hnm] at h'
        exact absurd h' (by decide)
      · intro h'
        rw [hnm] at h'
        exact absurd h' (by decide)
    | none =>
      have hnoev := (firstSub_eq_none c.children "vevent").1 he
      cases htd : firstSub c.children "vtodo" with
      | some j =>
        have hj : j = i := by
          simp only [targetIdx, he, htd] at hti
          exact Option.some.inj hti
        subst hj
        obtain ⟨ch, hch, hnm, hbefore⟩ := firstSub_eq_some c.children "vtodo" j htd
        refine ⟨ch, hch, Or.inr (Or.inl hnm), ?_, ?_, ?_⟩
        · intro j' hj' ch' hch'
          rw [hnm]
          exact hbefore j' hj' ch' hch'
        · intro _ ch' hch'
          exact hnoev ch' hch'
        · intro h'
          rw [hnm] at h'
          exact absurd h' (by decide)
      | none =>
        have hnotd := (firstSub_eq_none c.children "vtodo").1 htd
        cases hjr : firstSub c.children "vjournal" with
        | some j =>
          have hj : j = i := by
            simp only [targetIdx, he, htd, hjr] at hti
            exact Option.some.inj hti
          subst hj
          obtain ⟨ch, hch, hnm, hbefore⟩ := firstSub_eq_some c.children "vjournal" j hjr
          refine ⟨ch, hch, Or.inr (Or.inr hnm), ?_, ?_, ?_⟩
          · intro j' hj' ch' hch'
            rw [hnm]
            exact hbefore j' hj' ch' hch'
          · intro h'
            rw [hnm] at h'
            exact absurd h' (by decide)
          · intro _ ch' hch'
            exact ⟨hnoev ch' hch', hnotd ch' hch'⟩
        | none =>
          exfalso
          simp only [targetIdx, he, htd, hjr] at hti
          exact Option.noConfusion hti

/-- C3 applied at a concrete input: a container with only a vtimezone
child is rejected with NoUpdatableComponent. -/
theorem updateFields_container_target_w :
    updateFields parseStub (.str "EMPTYCAL") [("SUMMARY", "x")] =
      .error .noUpdatableComponent :=
  (updateFields_container_target parseStub (.str "EMPTYCAL") [("SUMMARY", "x")]
    "EMPTYCAL" sampleEmptyCalendar rfl (by decide) rfl rfl).2.1 rfl

/-- C1: every property whose name is not among the (lowercased) field-map
keys survives the update with identical value, parameters and relative
order: the filtered property sublist of the target is unchanged (and, on a
tree whose names are in the engine's canonical lowercase form, that filter
coincides with the case-insensitive "not a key of F" filter of the claim);
the container's own properties and every sibling sub-record other than the
selected target are preserved in full, and the entire tree is
serialized. -/
theorem updateFields_preserves_unnamed (parse : String → Except String Component)
    (co : CalendarObjectInput) (fields : List (String × String)) (s : String)
    (c : Component)
    (h1 : extractData co = some s) (h2 : s ≠ "") (h3 : parse s = .ok c) :
    (c.name = "vcalendar" →
      ∀ i, targetIdx c.children = some i →
        updateFields parse co fields =
          .ok (serialize (.mk c.name c.properties
            (modifyIdx c.children i (fun t => applyFields t fields)))) ∧
        (∀ j, j ≠ i →
          (modifyIdx c.children i (fun t => applyFields t fields))[j]? =
            c.children[j]?) ∧
        (∀ t, c.children[i]? = some t →
          (modifyIdx c.children i (fun t => applyFields t fields))[i]? =
            some (applyFields t fields) ∧
          (applyFields t fields).name = t.name ∧
          (applyFields t fields).children = t.children ∧
          keepOthers fields (applyFields t fields).properties =
            keepOthers fields t.properties ∧
          (lowerNamed t.properties →
            keepOthersCI fields t.properties = keepOthers fields t.properties))) ∧
    (c.name ≠ "vcalendar" →
      updateFields parse co fields = .ok (serialize (applyFields c fields)) ∧
      (applyFields c fields).name = c.name ∧
      (applyFields c fields).children = c.children ∧
      keepOthers fields (applyFields c fields).properties =
        keepOthers fields c.properties ∧
      (lowerNamed c.properties →
        keepOthersCI fields c.properties = keepOthers fields c.properties)) := by
  constructor
  · intro hn i hti
    refine ⟨updateFields_ok_container parse co fields s c i h1 h2 h3 hn hti, ?_, ?_⟩
    · intro j hj
      exact modifyIdx_getElem?_ne c.children i j _ hj
    · intro t ht
      refine ⟨?_, applyFields_name t fields, applyFields_children t fields,
        keepOthers_applyFields t fields,
        keepOthersCI_eq_keepOthers fields t.properties⟩
      rw [modifyIdx_getElem?_eq, ht]
      rfl
  · intro hn
    exact ⟨updateFields_ok_standalone parse co fields s c h1 h2 h3 hn,
      applyFields_name c fields, applyFields_children c fields,
      keepOthers_applyFields c fields,
      keepOthersCI_eq_keepOthers fields c.properties⟩

/-- C1 applied at a concrete input: updating SUMMARY on the sample
calendar touches only the first vevent child and leaves the uid and
location properties (and the vtimezone sibling and second vevent) in
place. -/
theorem updateFields_preserves_unnamed_w :
    updateFields parseStub (.str "CAL") [("SUMMARY", "Updated")] =
      .ok (serialize (.mk "vcalendar" sampleCalendar.properties
        (modifyIdx sampleCalendar.children 1
          (fun t => applyFields t [("SUMMARY", "Updated")])))) ∧
    keepOthers [("SUMMARY", "Updated")] (applyFields sampleEvent [("SUMMARY", "Updated")]).properties =
      keepOthers [("SUMMARY", "Updated")] sampleEvent.properties := by
  have h := updateFields_preserves_unnamed parseStub (.str "CAL")
    [("SUMMARY", "Updated")] "CAL" sampleCalendar rfl (by decide) rfl
  have hc := h.1 rfl 1 rfl
  exact ⟨hc.1, (hc.2.2 sampleEvent rfl).2.2.2.1⟩

/-- C2 as universally stated is false: with the field map
{SUMMARY ↦ "A", summary ↦ "B"} on the sample standalone card, the only
property of the update target whose name is case-insensitively "SUMMARY"
carries the value "B", not the value "A" that the map assigns to the key
"SUMMARY". -/
theorem updateFields_upsert_value_cex :
    ("SUMMARY", "A") ∈ [("SUMMARY", "A"), ("summary", "B")] ∧
    updateFields parseStub (.str "CARD") [("SUMMARY", "A"), ("summary", "B")] =
      .ok (serialize (applyFields sampleCard [("SUMMARY", "A"), ("summary", "B")])) ∧
    (applyFields sampleCard [("SUMMARY", "A"), ("summary", "B")]).properties.filter
        (fun p => decide ((lowerStr p.name) = (lowerStr "SUMMARY"))) =
      [⟨"summary", [], "B"⟩] ∧
    ("B" : String) ≠ "A" :=
  ⟨by decide, rfl, rfl, by decide⟩

/-- C2 amended: for every key k of the field map that no later-enumerated
key equals case-insensitively, the update target of the output has a
property named k (lowercased) whose value is exactly F[k]; a single upsert
replaces the first existing property of that name in place (keeping its
position, name and parameters) and otherwise appends a new property, with
no validation of name or value. -/
theorem updateFields_upsert_last_key (parse : String → Except String Component)
    (co : CalendarObjectInput) (fields : List (String × String)) (s : String)
    (c : Component) (before after : List (String × String)) (k v : String)
    (h1 : extractData co = some s) (h2 : s ≠ "") (h3 : parse s = .ok c)
    (hf : fields = before ++ (k, v) :: after)
    (hlast : ∀ e ∈ after, (lowerStr e.1) ≠ (lowerStr k)) :
    (c.name = "vcalendar" →
      ∀ i t, targetIdx c.children = some i → c.children[i]? = some t →
        (applyFields t fields).getFirstPropertyValue (lowerStr k) = some v ∧
        updateFields parse co fields =
          .ok (serialize (.mk c.name c.properties
            (modifyIdx c.children i (fun u => applyFields u fields))))) ∧
    (c.name ≠ "vcalendar" →
      (applyFields c fields).getFirstPropertyValue (lowerStr k) = some v ∧
      updateFields parse co fields = .ok (serialize (applyFields c fields))) ∧
    (∀ (ps : List Property) (nm w : String), (∀ p ∈ ps, p.name ≠ nm) →
      updateProp ps nm w = ps ++ [⟨nm, [], w⟩]) ∧
    (∀ (ps1 ps2 : List Property) (p : Property) (nm w : String),
      p.name = nm → (∀ q ∈ ps1, q.name ≠ nm) →
      updateProp (ps1 ++ p :: ps2) nm w = ps1 ++ { p with value := w } :: ps2) := by
  subst hf
  refine ⟨?_, ?_, fun ps nm w h => updateProp_append ps nm w h,
    fun ps1 ps2 p nm w hp h => updateProp_replace ps1 ps2 p nm w hp h⟩
  · intro hn i t hti ht
    exact ⟨getVal_applyFields_last t before after k v hlast,
      updateFields_ok_container parse co _ s c i h1 h2 h3 hn hti⟩
  · intro hn
    exact ⟨getVal_applyFields_last c before after k v hlast,
      updateFields_ok_standalone parse co _ s c h1 h2 h3 hn⟩

/-- C2 (amended) applied at a concrete input: updating FN on the sample
card stores the new value under the lowercased name. -/
theorem updateFields_upsert_last_key_w :
    (applyFields sampleCard [("FN", "Jane Doe")]).getFirstPropertyValue "fn" =
      some "Jane Doe" ∧
    updateFields parseStub (.str "CARD") [("FN", "Jane Doe")] =
      .ok (serialize (applyFields sampleCard [("FN", "Jane Doe")])) :=
  (updateFields_upsert_last_key parseStub (.str "CARD") [("FN", "Jane Doe")] "CARD"
    sampleCard [] [] "FN" "Jane Doe" rfl (by decide) rfl rfl (by simp)).2.1 (by decide)

/-- C10: when two distinct field-map keys are equal up to letter case,
both upserts target the same (lowercased) property name, so the whole call
behaves as if only the later key were given, and the value enumerated last
is the one visible on the target. -/
theorem updateFields_collision_last_wins (parse : String → Except String Component)
    (co : CalendarObjectInput) (k1 k2 v1 v2 : String)
    (hne : k1 ≠ k2) (hlow : (lowerStr k1) = (lowerStr k2)) :
    updateFields parse co [(k1, v1), (k2, v2)] = updateFields parse co [(k2, v2)] ∧
    ∀ t : Component,
      applyFields t [(k1, v1), (k2, v2)] = applyFields t [(k2, v2)] ∧
      (applyFields t [(k1, v1), (k2, v2)]).getFirstPropertyValue (lowerStr k2) =
        some v2 := by
  have hAF : ∀ t : Component,
      applyFields t [(k1, v1), (k2, v2)] = applyFields t [(k2, v2)] := by
    intro t
    show updateComp (updateComp t (lowerStr k1) v1) (lowerStr k2) v2 = updateComp t (lowerStr k2) v2
    rw [hlow]
    exact updateComp_updateComp t (lowerStr k2) v1 v2
  refine ⟨?_, fun t => ⟨hAF t, ?_⟩⟩
  · cases hext : extractData co with
    | none => simp [updateFields, hext]
    | some s =>
      by_cases hs : s = ""
      · simp [updateFields, hext, hs]
      · cases hp : parse s with
        | error e => simp [updateFields, hext, hs, hp]
        | ok c =>
          cases c with
          | mk nm ps cs =>
            by_cases hn : nm = "vcalendar"
            · cases ht : targetIdx cs with
              | none => simp [updateFields, hext, hs, hp, hn, ht]
              | some i => simp [updateFields, hext, hs, hp, hn, ht, hAF]
            · simp [updateFields, hext, hs, hp, hn, hAF]
  · rw [hAF t]
    show (updateComp t (lowerStr k2) v2).getFirstPropertyValue (lowerStr k2) = some v2
    unfold Component.getFirstPropertyValue updateComp
    simp only [Component.properties]
    exact find?_updateProp_self t.properties (lowerStr k2) v2

/-- C10 applied at a concrete input: SUMMARY then summary behaves like
summary alone. -/
theorem updateFields_collision_last_wins_w :
    updateFields parseStub (.str "CARD") [("SUMMARY", "A"), ("summary", "B")] =
      updateFields parseStub (.str "CARD") [("summary", "B")] :=
  (updateFields_collision_last_wins parseStub (.str "CARD") "SUMMARY" "summary"
    "A" "B" (by decide) (by decide)).1
